import Mathlib

/-!
Verification development for the cosme-feed build pipeline (tools/build.mjs).

The JavaScript source is shallowly embedded: strings are Lean `String`
(sequences of code points), timestamps are `Int` milliseconds, the platform
date codec (`new Date` / `toISOString`) is an explicit `DateOracle`
parameter, and the WHATWG `URL` class is an explicit parse function into a
concrete record.  Fallible stages are `Except` values; the driver loop is
a pure fold over a per-endpoint outcome map.
-/

namespace CosmeFeed

/-- Characters matched by the JavaScript regex class backslash-s, which the
source uses for whitespace collapsing, and also removed by trim. -/
def isJsWS (c : Char) : Bool :=
  c == ' ' || c == '\t' || c == '\n' || c == '\r' ||
  c.toNat == 0x0b || c.toNat == 0x0c || c.toNat == 0xa0 ||
  c.toNat == 0x1680 || (0x2000 ≤ c.toNat && c.toNat ≤ 0x200a) ||
  c.toNat == 0x2028 || c.toNat == 0x2029 || c.toNat == 0x202f ||
  c.toNat == 0x205f || c.toNat == 0x3000 || c.toNat == 0xfeff

/-- One step of whitespace collapsing; the flag records whether the previous
character was whitespace (so a run emits a single space).  Embeds the
source idiom replace of a whitespace run by a single space. -/
def collapseGo : Bool → List Char → List Char
  | _, [] => []
  | prevWS, c :: rest =>
    if isJsWS c then
      (if prevWS then collapseGo true rest else ' ' :: collapseGo true rest)
    else c :: collapseGo false rest

/-- Collapse every whitespace run to a single space. -/
def collapseL (l : List Char) : List Char := collapseGo false l

/-- Trim whitespace from both ends (JavaScript String.trim). -/
def trimL (l : List Char) : List Char :=
  ((l.dropWhile isJsWS).reverse.dropWhile isJsWS).reverse

/-- Collapse whitespace then trim, the common preamble of the text
heuristics in the source. -/
def collapseTrim (l : List Char) : List Char := trimL (collapseL l)

/-- Case folding used to model the i flag of the source regexes (ASCII
lowering; CJK text is unaffected, as in JavaScript). -/
def jsLower (c : Char) : Char := c.toLower

/-- Lower a whole character list. -/
def lowerAll (l : List Char) : List Char := l.map jsLower

/-- Model of JavaScript String.startsWith. -/
def startsWithL (p s : List Char) : Bool := p.isPrefixOf s

/-- Substring occurrence test (used to model regex test for literal-word
patterns, which is exactly substring search). -/
def hasSubstr (pat : List Char) : List Char → Bool
  | [] => pat.isEmpty
  | c :: rest => pat.isPrefixOf (c :: rest) || hasSubstr pat rest

/-- Case-insensitive substring test, modelling new RegExp(k, i).test(s) for a
literal word k. -/
def ciContains (pat hay : List Char) : Bool :=
  hasSubstr (lowerAll pat) (lowerAll hay)

/-- Case-insensitive test for an alternation of literal words, modelling a
regex such as the limited or new-product patterns of the source. -/
def ciContainsAny (pats : List (List Char)) (hay : List Char) : Bool :=
  pats.any (fun p => ciContains p hay)

/-- Match a literal word case-insensitively at the head of s; on success
return the remainder. -/
def matchCIWord (w s : List Char) : Option (List Char) :=
  if (lowerAll w).isPrefixOf (lowerAll s) then some (s.drop w.length) else none

/-- The alternation PR, 広告, お知らせ, News of the promotional-marker regex,
tried in the regex order (leftmost alternative first). -/
def promoBody (s : List Char) : Option (List Char) :=
  (matchCIWord "PR".data s) <|> (matchCIWord "広告".data s) <|>
  (matchCIWord "お知らせ".data s) <|> (matchCIWord "News".data s)

/-- Match the whole promotional-marker pattern (optional 【, the word
alternation, optional 】) at the current position.  None of the alternation
words starts with 【, so the optional leading bracket never backtracks. -/
def promoMatch (s : List Char) : Option (List Char) :=
  let m := match s with
    | '【' :: rest => promoBody rest
    | _ => promoBody s
  m.map (fun r => match r with
    | '】' :: r2 => r2
    | _ => r)

/-- Global scan-and-delete of the promotional-marker pattern, the source
replace with empty string under the g flag.  Fuel is the input length; every
match consumes at least one character, so the fuel never runs out. -/
def stripPromoAux : Nat → List Char → List Char
  | 0, s => s
  | _ + 1, [] => []
  | f + 1, c :: rest =>
    match promoMatch (c :: rest) with
    | some rem => stripPromoAux f rem
    | none => c :: stripPromoAux f rest

/-- Remove every promotional-marker occurrence. -/
def stripPromo (s : List Char) : List Char := stripPromoAux s.length s

/-- Title normalizer, translated from normalizeTitle in tools/build.mjs:
empty raw title yields brand plus a fixed suffix; otherwise collapse and
trim whitespace, strip promotional markers, prepend the 限定, 新作 and 発売
tag brackets in that order when the corresponding pattern matches and the
tag is not already leading, finally prefix the brand name when the text
does not already start with it. -/
def normalizeTitle (brand raw : String) : String :=
  if raw = "" then brand ++ "の最新情報"
  else
    let t0 := trimL (collapseL raw.data)
    let t1 := trimL (stripPromo t0)
    let t2 := if ciContainsAny ["限定".data, "先行".data, "数量".data] t1 &&
                 !(startsWithL "【限定】".data t1)
              then "【限定】".data ++ t1 else t1
    let t3 := if ciContainsAny ["新作".data, "新色".data, "新商品".data] t2 &&
                 !(startsWithL "【新作】".data t2)
              then "【新作】".data ++ t2 else t2
    let t4 := if ciContainsAny ["発売".data, "解禁".data, "公開".data] t3 &&
                 !(startsWithL "【発売】".data t3)
              then "【発売】".data ++ t3 else t3
    String.mk (if startsWithL brand.data t4 then t4
               else brand.data ++ "：".data ++ t4)

/-- Index of the first 。 character, modelling String.indexOf, with none for
the JavaScript result -1. -/
def firstStop : List Char → Option Nat
  | [] => none
  | c :: rest => if c = '。' then some 0 else (firstStop rest).map (· + 1)

/-- Summarizer, translated from summarizeJP in tools/build.mjs: empty input
yields a fixed sentence; otherwise collapse and trim whitespace, and cut at
the first 。 when its index exceeds 20, else keep the first 120
characters. -/
def summarizeJP (txt : String) : String :=
  if txt = "" then "公式情報の要点をまとめました。"
  else
    let s := trimL (collapseL txt.data)
    match firstStop s with
    | some i => if 20 < i then String.mk (s.take (i + 1))
                else String.mk (s.take 120)
    | none => String.mk (s.take 120)

/-- The fixed seven-category vocabulary catDict of the source. -/
def catDict : List String :=
  ["リップ", "チーク", "アイメイク", "スキンケア", "ベースメイク", "ネイル", "ヘアケア"]

/-- Category classifier, translated from guessCategory in tools/build.mjs.
The source iterates a Set built from hints then catDict; iterating the
concatenation gives the same first match, since duplicates can never win
earlier than their first occurrence.  Regex tests over literal keywords are
modelled as case-insensitive substring tests. -/
def guessCategory (brandHints : List String) (text : String) : String :=
  match (brandHints ++ catDict).find? (fun k => ciContains k.data text.data) with
  | some k => k
  | none =>
    if ciContainsAny ["lip".data, "リップ".data] text.data then "リップ"
    else if ciContainsAny ["cheek".data, "チーク".data] text.data then "チーク"
    else if ciContainsAny ["skin".data, "スキンケア".data] text.data then "スキンケア"
    else if ciContainsAny ["eye".data, "アイシャドウ".data, "アイライナー".data,
                           "マスカラ".data] text.data then "アイメイク"
    else "スキンケア"

/-! Link extraction (pickLink) over the union-shaped link field produced by
the external structured-markup parser. -/

/-- A link element: optional rel marker and optional href value.  An href
attribute that is present but empty is distinct from an absent one, since
the source tests truthiness. -/
structure LinkObj where
  rel : Option String
  href : Option String
deriving DecidableEq, Repr

/-- The union-shaped link field of a raw entry: absent, a plain string, a
single link object, or a sequence of link objects. -/
inductive LinkField where
  | absent
  | str (s : String)
  | obj (o : LinkObj)
  | arr (l : List LinkObj)
deriving DecidableEq, Repr

/-- The part of a raw parsed entry that pickLink consults: the link field
and the optional enclosure URL. -/
structure RawIt where
  link : LinkField
  enclosureUrl : Option String
deriving DecidableEq, Repr

/-- Truthiness of the href of a link object, as tested by the source. -/
def hrefTruthy (l : LinkObj) : Bool :=
  match l.href with
  | some h => h ≠ ""
  | none => false

/-- The href value of a link object (empty when absent). -/
def hrefOf (l : LinkObj) : String := l.href.getD ""

/-- Predicate for the alternate-relation search of the source: rel is
exactly alternate and the href is truthy. -/
def altPred (l : LinkObj) : Bool :=
  l.rel == some "alternate" && hrefTruthy l

/-- Truthy enclosure URL fallback of the source. -/
def enclOf (it : RawIt) : String :=
  match it.enclosureUrl with
  | some u => if u = "" then "" else u
  | none => ""

/-- Link extraction, translated from pickLink in tools/build.mjs.  The
source first handles the object shapes (array: prefer the first
alternate-with-href, then the first object with a truthy href), then a
truthy plain string, then the enclosure URL, else the empty string. -/
def pickLink (it : RawIt) : String :=
  match it.link with
  | .arr l =>
    match l.find? altPred with
    | some alt => hrefOf alt
    | none =>
      match l.find? hrefTruthy with
      | some f => hrefOf f
      | none => enclOf it
  | .obj o => if hrefTruthy o then hrefOf o else enclOf it
  | .str s => if s = "" then enclOf it else s
  | .absent => enclOf it

/-- Whether the link field on its own yields a link in pickLink (clause d of
the specification calls the complement: no usable link field). -/
def usableLink : LinkField → Bool
  | .absent => false
  | .str s => s ≠ ""
  | .obj o => hrefTruthy o
  | .arr l => l.any hrefTruthy

/-! URL normalization.  The WHATWG URL platform class is external; it is
modelled by a parse function into a concrete component record together
with the serializer that concatenates the components in order. -/

/-- Parsed URL components: everything before the path, the path, the query,
and the fragment, serialized in this order. -/
structure URLRec where
  pre : String
  pathname : String
  query : String
  hash : String
deriving DecidableEq, Repr

/-- URL serializer: concatenation of the components. -/
def serializeRec (r : URLRec) : String :=
  r.pre ++ r.pathname ++ r.query ++ r.hash

/-- Remove every trailing slash from a path, the source replace of a
trailing-slash run by the empty string. -/
def dropTrailingSlashes (l : List Char) : List Char :=
  (l.reverse.dropWhile (fun c => c == '/')).reverse

/-- Whether the path ends with a slash (JavaScript String.endsWith). -/
def endsWithSlash (l : List Char) : Bool := decide (l.getLast? = some '/')

/-- The path rewrite of normalizeUrl: strip trailing slashes when the path
is not the bare root and ends with a slash. -/
def stripPath (p : String) : String :=
  if p ≠ "/" ∧ endsWithSlash p.data
  then String.mk (dropTrailingSlashes p.data)
  else p

/-- The mutation normalizeUrl applies to a parsed URL: clear the fragment
and rewrite the path. -/
def stripRec (r : URLRec) : URLRec :=
  { r with hash := "", pathname := stripPath r.pathname }

/-- URL normalizer, translated from normalizeUrl in tools/build.mjs,
parameterized by the platform URL parser.  On parse failure the input is
returned unchanged (the source returns u, or the empty string when u is
itself empty). -/
def normalizeUrl (parseU : String → Option URLRec) (u : String) : String :=
  match parseU u with
  | some r => serializeRec (stripRec r)
  | none => u

/-! Pipeline data model and driver. -/

/-- A canonical content record, one per surviving entry (the object literal
pushed by the driver loop in tools/build.mjs). -/
structure Item where
  id : String
  brand : String
  title : String
  summary : String
  publishedAt : String
  category : String
  sourceType : String
  url : String
  thumbnailURL : Option String
deriving DecidableEq, Repr

/-- Deduplication by canonical URL, translated from dedupeByUrl in
tools/build.mjs: walk the list keeping a seen set of canonical keys; an
item whose key is empty or already seen is dropped, otherwise it is kept
with its url field overwritten by the canonical key. -/
def dedupeGo (parseU : String → Option URLRec) (seen : List String) :
    List Item → List Item
  | [] => []
  | x :: xs =>
    if normalizeUrl parseU x.url = "" ∨ normalizeUrl parseU x.url ∈ seen
    then dedupeGo parseU seen xs
    else { x with url := normalizeUrl parseU x.url } ::
      dedupeGo parseU (normalizeUrl parseU x.url :: seen) xs

/-- Deduplication entry point (empty seen set). -/
def dedupeByUrl (parseU : String → Option URLRec) (arr : List Item) :
    List Item := dedupeGo parseU [] arr

/-- The platform date codec: parse a date string to epoch milliseconds
(none models an invalid date), and format an instant as its canonical
timestamp string (toISOString). -/
structure DateOracle where
  parse : String → Option Int
  fmt : Int → String

/-- A well-behaved date codec: formatting then parsing recovers the
instant.  This is the platform contract of new Date and toISOString. -/
def DateOracle.Good (o : DateOracle) : Prop :=
  ∀ t : Int, o.parse (o.fmt t) = some t

/-- Date coercion, translated from toISO in tools/build.mjs: parse the
value and reformat it canonically; an unparseable value is silently
replaced by the current instant. -/
def toISO (o : DateOracle) (now : Int) (d : String) : String :=
  match o.parse d with
  | some t => o.fmt t
  | none => o.fmt now

/-- One day in milliseconds, the clock-skew allowance of the filter. -/
def dayMs : Int := 86400000

/-- The inclusive time-window predicate of the driver: the item date
parses, is at least now minus ninety days, and at most now plus one day.
An unparseable date fails the test (the isNaN guard of the source). -/
def inWindow (o : DateOracle) (now : Int) (x : Item) : Bool :=
  match o.parse x.publishedAt with
  | some t => decide (now - 90 * dayMs ≤ t) && decide (t ≤ now + dayMs)
  | none => false

/-- Sort key: the parsed timestamp of an item.  After the time filter every
item parses, so the default is never observable in the pipeline. -/
def keyOf (o : DateOracle) (x : Item) : Int := (o.parse x.publishedAt).getD 0

/-- Sort descending by publishedAt (the source comparator b minus a).  The
claims about the pipeline depend only on the multiset of the result, so an
insertion sort with the same key order is a faithful model. -/
def sortDesc (o : DateOracle) (l : List Item) : List Item :=
  l.insertionSort (fun a b => keyOf o b ≤ keyOf o a)

/-! Feed endpoint construction and the collection loop of main. -/

/-- One source from the configuration document (brands.json). -/
structure Brand where
  brand : String
  categoryHints : List String
  rss : List String
  youtube : List String
  useGoogleNewsRSS : Option Bool
  googleQuery : Option String
deriving DecidableEq, Repr

/-- The channel-feed URL template for a video channel id. -/
def ytRSS (chId : String) : String :=
  "https://www.youtube.com/feeds/videos.xml?channel_id=" ++ chId

/-- Unreserved characters of encodeURIComponent. -/
def uriUnreserved (c : Char) : Bool :=
  (('A' ≤ c && c ≤ 'Z') || ('a' ≤ c && c ≤ 'z') || ('0' ≤ c && c ≤ '9')) ||
  c == '-' || c == '_' || c == '.' || c == '!' || c == '~' || c == '*' ||
  c.toNat == 39 || c == '(' || c == ')'

/-- Uppercase hexadecimal digit. -/
def hexDig (n : Nat) : Char :=
  if n < 10 then Char.ofNat (48 + n) else Char.ofNat (55 + n)

/-- UTF-8 bytes of a code point. -/
def utf8Bytes (c : Char) : List Nat :=
  let n := c.toNat
  if n < 0x80 then [n]
  else if n < 0x800 then [0xc0 + n / 64, 0x80 + n % 64]
  else if n < 0x10000 then
    [0xe0 + n / 4096, 0x80 + n / 64 % 64, 0x80 + n % 64]
  else
    [0xf0 + n / 262144, 0x80 + n / 4096 % 64, 0x80 + n / 64 % 64,
     0x80 + n % 64]

/-- Percent-encoding of one character, as encodeURIComponent does. -/
def encChar (c : Char) : List Char :=
  if uriUnreserved c then [c]
  else (utf8Bytes c).flatMap (fun b => ['%', hexDig (b / 16), hexDig (b % 16)])

/-- Model of encodeURIComponent. -/
def encodeURIComponent (s : String) : String :=
  String.mk (s.data.flatMap encChar)

/-- The Google News search-feed URL template of the source. -/
def googleNewsRSS (q : String) : String :=
  "https://news.google.com/rss/search?q=" ++ encodeURIComponent q ++
  "&hl=ja&gl=JP&ceid=JP:ja"

/-- Ordered endpoint list of a source, translated from the loop header of
main: explicit RSS endpoints, then video channels mapped through the
template; when that list is empty and the fallback flag (default true) is
on, a single search-feed endpoint is synthesized from the explicit query
(a falsy, that is empty, query also falls back to the default template). -/
def feedURLs (b : Brand) : List String :=
  let base := b.rss ++ b.youtube.map ytRSS
  if b.useGoogleNewsRSS.getD true ∧ base = [] then
    let q := match b.googleQuery with
      | some s => if s = "" then b.brand ++ " 新作 OR 新商品 OR コスメ" else s
      | none => b.brand ++ " 新作 OR 新商品 OR コスメ"
    base ++ [googleNewsRSS q]
  else base

/-- The unified entry shape produced by fetchRSS for the driver loop. -/
structure Entry where
  title : String
  link : String
  desc : String
  pubDate : String
deriving DecidableEq, Repr

/-- Normalization of one entry into a canonical item, translated from the
push inside the driver loop of main (title, category, summary, date
coercion, source-type test on the URL, raw URL stored). -/
def normEntry (o : DateOracle) (now : Int) (brand : String)
    (hints : List String) (id : String) (e : Entry) : Item :=
  { id := id
    brand := brand
    title := normalizeTitle brand e.title
    summary := summarizeJP (if e.desc = "" then e.title else e.desc)
    publishedAt := toISO o now (if e.pubDate = "" then o.fmt now else e.pubDate)
    category := guessCategory hints (e.title ++ " " ++ e.desc)
    sourceType := if ciContains "youtube".data e.link.data ||
                     ciContains "youtu.be".data e.link.data
                  then "youtube" else "website"
    url := e.link
    thumbnailURL := none }

/-- Push the entries of one successful endpoint: entries without a usable
link are skipped, the rest are normalized; the counter numbers the opaque
ids in push order. -/
def pushEntries (o : DateOracle) (uuid : Nat → String) (now : Int)
    (brand : String) (hints : List String) :
    List Entry → Nat → List Item × Nat
  | [], cnt => ([], cnt)
  | e :: es, cnt =>
    if e.link = "" then pushEntries o uuid now brand hints es cnt
    else
      let it := normEntry o now brand hints (uuid cnt) e
      let rest := pushEntries o uuid now brand hints es (cnt + 1)
      (it :: rest.1, rest.2)

/-- Per-endpoint collection over the endpoint list of one source: a failed
endpoint (fetch or parse error) is caught and contributes nothing, then
processing continues with the next endpoint — the try/catch of the driver
loop. -/
def collectFeeds (o : DateOracle) (uuid : Nat → String) (now : Int)
    (brand : String) (hints : List String)
    (out : String → Except String (List Entry)) :
    List String → Nat → List Item × Nat
  | [], cnt => ([], cnt)
  | u :: us, cnt =>
    let step := match out u with
      | .error _ => (([] : List Item), cnt)
      | .ok es => pushEntries o uuid now brand hints es cnt
    let rest := collectFeeds o uuid now brand hints out us step.2
    (step.1 ++ rest.1, rest.2)

/-- Collection over all sources (the outer loop of main). -/
def collectAll (o : DateOracle) (uuid : Nat → String) (now : Int)
    (out : String → Except String (List Entry)) :
    List Brand → Nat → List Item × Nat
  | [], cnt => ([], cnt)
  | b :: bs, cnt =>
    let this := collectFeeds o uuid now b.brand b.categoryHints out
      (feedURLs b) cnt
    let rest := collectAll o uuid now out bs this.2
    (this.1 ++ rest.1, rest.2)

/-- The synthetic diagnostic record substituted when the pipeline would
otherwise emit nothing, copied field by field from the source. -/
def fallbackItem (id pubAt : String) : Item :=
  { id := id
    brand := "テスト（feed未取得）"
    title := "【新作】フォールバック表示 — brands.json / Actionsログを確認してください"
    summary := "RSSの取得に失敗した可能性があります。URLやクエリ、権限を確認しましょう。"
    publishedAt := pubAt
    category := "スキンケア"
    sourceType := "website"
    url := "https://example.com/"
    thumbnailURL := none }

/-- The collected item sequence of a run. -/
def pipelineCollected (o : DateOracle) (uuid : Nat → String) (now : Int)
    (bs : List Brand) (out : String → Except String (List Entry)) :
    List Item :=
  (collectAll o uuid now out bs 0).1

/-- The id counter after collection (used for the fallback id). -/
def pipelineCnt (o : DateOracle) (uuid : Nat → String) (now : Int)
    (bs : List Brand) (out : String → Except String (List Entry)) : Nat :=
  (collectAll o uuid now out bs 0).2

/-- The collection restricted to the ninety-day window. -/
def pipelineFiltered (o : DateOracle) (uuid : Nat → String) (now : Int)
    (bs : List Brand) (out : String → Except String (List Entry)) :
    List Item :=
  (pipelineCollected o uuid now bs out).filter (inWindow o now)

/-- The deduplicated, descending-sorted sequence. -/
def pipelineSorted (o : DateOracle) (parseU : String → Option URLRec)
    (uuid : Nat → String) (now : Int) (bs : List Brand)
    (out : String → Except String (List Entry)) : List Item :=
  sortDesc o (dedupeByUrl parseU (pipelineFiltered o uuid now bs out))

/-- The whole pipeline of main: collect, filter to the time window,
deduplicate by canonical URL, sort descending, and substitute the
diagnostic record when the result is empty. -/
def runPipeline (o : DateOracle) (parseU : String → Option URLRec)
    (uuid : Nat → String) (now : Int) (bs : List Brand)
    (out : String → Except String (List Entry)) : List Item :=
  let sorted := pipelineSorted o parseU uuid now bs out
  if sorted = [] then
    [fallbackItem (uuid (pipelineCnt o uuid now bs out)) (o.fmt now)]
  else sorted

/-- Point update of an outcome map, used to compare a run against the same
run with one endpoint altered. -/
def updOutcome (out : String → Except String (List Entry)) (e : String)
    (v : Except String (List Entry)) :
    String → Except String (List Entry) :=
  fun u => if u = e then v else out u

/-! A concrete well-behaved date codec, used to instantiate the oracle in
witnesses and counterexamples: instants are stored in binary with letters
a and b as digits, least significant first, after a sign tag. -/

/-- Binary digits of a natural number, least significant bit first, written
with a for zero and b for one.  Fuel-based structural recursion so that
concrete evaluation reduces in the kernel. -/
def bitsAux : Nat → Nat → List Char
  | 0, _ => []
  | _ + 1, 0 => []
  | f + 1, n + 1 =>
    (if (n + 1) % 2 = 1 then 'b' else 'a') :: bitsAux f ((n + 1) / 2)

/-- Binary digit string of a natural number. -/
def natBits (n : Nat) : List Char := bitsAux (n + 1) n

/-- Decode a binary digit string, least significant first. -/
def ofBits : List Char → Nat
  | [] => 0
  | c :: r => (if c = 'b' then 1 else 0) + 2 * ofBits r

/-- Format an instant: sign tag N or minus, then the binary digits. -/
def binFmt : Int → String
  | .ofNat n => String.mk ('N' :: natBits n)
  | .negSucc n => String.mk ('-' :: natBits n)

/-- Parse an instant string produced by binFmt. -/
def binParse (s : String) : Option Int :=
  match s.data with
  | 'N' :: r => if r.all (fun c => c = 'a' || c = 'b') then
      some (Int.ofNat (ofBits r)) else none
  | '-' :: r => if r.all (fun c => c = 'a' || c = 'b') then
      some (Int.negSucc (ofBits r)) else none
  | _ => none

/-- The concrete date codec. -/
def binOracle : DateOracle := ⟨binParse, binFmt⟩

/-! A concrete URL parser satisfying the platform contract, used to
instantiate the parser in witnesses: everything before the first number
sign is the path, the rest the fragment. -/

/-- Split a character list at the first number sign. -/
def splitHash : List Char → List Char × List Char
  | [] => ([], [])
  | c :: rest =>
    if c = '#' then ([], c :: rest)
    else ((splitHash rest).1.cons c, (splitHash rest).2)

/-- The concrete URL parser: total, path before the first number sign,
fragment from it on, empty origin and query. -/
def hashParse (s : String) : Option URLRec :=
  some ⟨"", String.mk (splitHash s.data).1, "", String.mk (splitHash s.data).2⟩

/-- The records the concrete parser can produce: empty origin and query, a
path free of number signs, and a fragment that is empty or starts with the
number sign. -/
def hashWF (r : URLRec) : Prop :=
  r.pre = "" ∧ r.query = "" ∧ ('#' ∉ r.pathname.data) ∧
  (r.hash.data = [] ∨ r.hash.data.head? = some '#')

/-! Concrete configuration gadgets shared by witnesses and
counterexamples. -/

/-- A URL parser that always fails, making normalizeUrl the identity. -/
def urlNone : String → Option URLRec := fun _ => none

/-- A constant id generator. -/
def uuidConst : Nat → String := fun _ => "id"

/-- A source with one explicit feed endpoint. -/
def cexBrand : Brand := ⟨"B", [], ["u"], [], none, none⟩

/-- A source with two explicit feed endpoints. -/
def twoFeedBrand : Brand := ⟨"B", [], ["u1", "u2"], [], none, none⟩

/-- An entry whose publication instant lies just outside the ninety-day
window of now equal zero. -/
def cexE1 : Entry := ⟨"A", "http://a/x", "d", binFmt (-7776000001)⟩

/-- An entry at instant zero with the same link as cexE1. -/
def cexE2 : Entry := ⟨"C", "http://a/x", "d", binFmt 0⟩

/-- Outcome map delivering the two duplicate-link entries everywhere. -/
def dupOut : String → Except String (List Entry) := fun _ => .ok [cexE1, cexE2]

/-- Outcome map where every endpoint fails. -/
def errOut : String → Except String (List Entry) := fun _ => .error "boom"

/-- Outcome map where the first endpoint fails and the second succeeds. -/
def mixedOut : String → Except String (List Entry) := fun u =>
  if u = "u1" then .error "boom" else .ok [cexE2]

/-! General helper lemmas. -/

/-- Appending strings appends their character lists. -/
lemma data_append (a b : String) : (a ++ b).data = a.data ++ b.data := by
  cases a; cases b; rfl

/-- Decoding the binary digits of n recovers n when the fuel covers n. -/
lemma ofBits_bitsAux : ∀ f n, n ≤ f → ofBits (bitsAux f n) = n := by
  intro f
  induction f with
  | zero =>
    intro n hn
    have h0 : n = 0 := by omega
    subst h0
    rfl
  | succ f ih =>
    intro n hn
    cases n with
    | zero => rfl
    | succ m =>
      have hle : (m + 1) / 2 ≤ f := by omega
      have hrec := ih _ hle
      simp only [bitsAux, ofBits, hrec]
      rcases Nat.mod_two_eq_zero_or_one (m + 1) with h | h
      · rw [if_neg (by omega : ¬ (m + 1) % 2 = 1),
            if_neg (by decide : ¬ ('a' = 'b'))]
        omega
      · rw [if_pos h, if_pos (rfl : 'b' = 'b')]
        omega

/-- The binary digit strings use only the letters a and b. -/
lemma bitsAux_all_ab : ∀ f n,
    (bitsAux f n).all (fun c => c = 'a' || c = 'b') = true := by
  intro f
  induction f with
  | zero => intro n; rfl
  | succ f ih =>
    intro n
    cases n with
    | zero => rfl
    | succ m =>
      simp only [bitsAux, List.all_cons, ih, Bool.and_true]
      split <;> decide

/-- The concrete date codec satisfies the platform contract. -/
lemma binOracle_good : binOracle.Good := by
  intro t
  cases t with
  | ofNat n =>
    show binParse (binFmt (Int.ofNat n)) = _
    rw [binFmt, binParse]
    simp only [bitsAux_all_ab, natBits, if_pos]
    rw [ofBits_bitsAux (n + 1) n (by omega)]
  | negSucc n =>
    show binParse (binFmt (Int.negSucc n)) = _
    rw [binFmt, binParse]
    simp only [bitsAux_all_ab, natBits, if_pos]
    rw [ofBits_bitsAux (n + 1) n (by omega)]

/-- The head surviving dropWhile falsifies the predicate. -/
lemma head?_dropWhile_false {α : Type} (p : α → Bool) :
    ∀ (l : List α) (a : α), (l.dropWhile p).head? = some a → p a = false := by
  intro l
  induction l with
  | nil => intro a h; simp at h
  | cons c rest ih =>
    intro a h
    rw [List.dropWhile_cons] at h
    split at h
    · exact ih a h
    · rename_i hc
      simp only [List.head?_cons, Option.some.injEq] at h
      subst h
      simpa using hc

/-- After stripping, the path no longer ends with a slash. -/
lemma dropTrailing_not_ends (l : List Char) :
    endsWithSlash (dropTrailingSlashes l) = false := by
  rw [endsWithSlash, decide_eq_false_iff_not, dropTrailingSlashes,
    List.getLast?_reverse]
  intro hh
  have := head?_dropWhile_false _ _ _ hh
  simp at this

/-- The path rewrite of normalizeUrl is idempotent. -/
lemma stripPath_idem (p : String) : stripPath (stripPath p) = stripPath p := by
  by_cases hc : p ≠ "/" ∧ endsWithSlash p.data = true
  · have h1 : stripPath p = String.mk (dropTrailingSlashes p.data) := by
      rw [stripPath, if_pos hc]
    have hno : ¬ (stripPath p ≠ "/" ∧ endsWithSlash (stripPath p).data = true) := by
      intro hcon
      have h2 := hcon.2
      rw [h1] at h2
      have h3 : (String.mk (dropTrailingSlashes p.data)).data
          = dropTrailingSlashes p.data := rfl
      rw [h3, dropTrailing_not_ends] at h2
      exact Bool.false_ne_true h2
    conv_lhs => rw [stripPath]
    rw [if_neg hno]
  · have hno : ¬ (stripPath p ≠ "/" ∧ endsWithSlash (stripPath p).data = true) := by
      have h1 : stripPath p = p := by rw [stripPath, if_neg hc]
      rw [h1]
      exact hc
    conv_lhs => rw [stripPath]
    rw [if_neg hno]

/-- The record rewrite of normalizeUrl is idempotent. -/
lemma stripRec_idem (r : URLRec) : stripRec (stripRec r) = stripRec r := by
  simp [stripRec, stripPath_idem]

/-! Lemmas about the concrete URL parser. -/

/-- splitHash splits its input into the two returned parts, the first free
of number signs and the second empty or starting with one. -/
lemma splitHash_spec : ∀ l : List Char,
    (splitHash l).1 ++ (splitHash l).2 = l ∧ '#' ∉ (splitHash l).1 ∧
    ((splitHash l).2 = [] ∨ (splitHash l).2.head? = some '#') := by
  intro l
  induction l with
  | nil => exact ⟨rfl, by simp [splitHash], Or.inl rfl⟩
  | cons c rest ih =>
    by_cases hc : c = '#'
    · subst hc
      refine ⟨?_, ?_, Or.inr ?_⟩ <;> simp [splitHash]
    · obtain ⟨h1, h2, h3⟩ := ih
      rw [splitHash, if_neg hc]
      refine ⟨?_, ?_, h3⟩
      · simpa using h1
      · intro hm
        rcases List.mem_cons.mp hm with h | h
        · exact hc h.symm
        · exact h2 h

/-- Rebuilding a split input: splitting a number-sign-free path followed by
a well-shaped fragment recovers the two parts. -/
lemma splitHash_append : ∀ (p h : List Char), '#' ∉ p →
    (h = [] ∨ h.head? = some '#') → splitHash (p ++ h) = (p, h) := by
  intro p
  induction p with
  | nil =>
    intro h _ hh
    rcases hh with hh | hh
    · subst hh; rfl
    · cases h with
      | nil => rfl
      | cons c t =>
        simp only [List.head?_cons, Option.some.injEq] at hh
        subst hh
        simp [splitHash]
  | cons c p ih =>
    intro h hp hh
    have hc : c ≠ '#' := by
      intro hcon
      exact hp (by rw [hcon]; exact List.mem_cons_self _ _)
    have h2 : splitHash (List.append p h) = (p, h) :=
      ih h (fun hm => hp (List.mem_cons_of_mem _ hm)) hh
    simp only [List.cons_append, splitHash, if_neg hc]
    rw [h2]

/-- The concrete parser only produces well-shaped records. -/
lemma hashParse_wf : ∀ u r, hashParse u = some r → hashWF r := by
  intro u r h
  rw [hashParse] at h
  obtain ⟨h1, h2, h3⟩ := splitHash_spec u.data
  cases h
  exact ⟨rfl, rfl, h2, by
    rcases h3 with h3 | h3
    · exact Or.inl (by simp [h3])
    · exact Or.inr (by simpa using h3)⟩

/-- The rewrite preserves well-shapedness. -/
lemma hashWF_strip : ∀ r, hashWF r → hashWF (stripRec r) := by
  intro r ⟨h1, h2, h3, _⟩
  refine ⟨h1, h2, ?_, Or.inl rfl⟩
  show '#' ∉ (stripPath r.pathname).data
  rw [stripPath]
  split
  · show '#' ∉ dropTrailingSlashes r.pathname.data
    intro hmem
    apply h3
    rw [dropTrailingSlashes] at hmem
    rw [List.mem_reverse] at hmem
    have := (List.dropWhile_sublist _).mem hmem
    rwa [List.mem_reverse] at this
  · exact h3

/-- The concrete parser inverts the serializer on well-shaped records. -/
lemma hashParse_serialize : ∀ r, hashWF r → hashParse (serializeRec r) = some r := by
  intro r ⟨h1, h2, h3, h4⟩
  obtain ⟨pre, pathname, query, hash⟩ := r
  simp only at h1 h2 h3 h4
  subst h1; subst h2
  rw [serializeRec]
  simp only
  have hdata : (("" : String) ++ pathname ++ "" ++ hash).data
      = pathname.data ++ hash.data := by
    rw [data_append, data_append, data_append]
    simp
  rw [hashParse, hdata, splitHash_append pathname.data hash.data h3 h4]

/-! C9 support done; the claim theorems start here. -/

/-- C9: the canonical URL normalizer is idempotent and total.  The WHATWG
URL platform class is abstracted as a parse function: assuming the
platform contract (parsed records are well formed, the rewrite preserves
well-formedness, and the parser inverts the serializer on well-formed
records), normalizing twice equals normalizing once; and on parse failure
the input is returned unchanged, so the translation never throws. -/
theorem normalizeUrl_idem_total (parseU : String → Option URLRec)
    (wf : URLRec → Prop)
    (h1 : ∀ u r, parseU u = some r → wf r)
    (h2 : ∀ r, wf r → wf (stripRec r))
    (h3 : ∀ r, wf r → parseU (serializeRec r) = some r) :
    ∀ u, normalizeUrl parseU (normalizeUrl parseU u) = normalizeUrl parseU u
      ∧ (parseU u = none → normalizeUrl parseU u = u) := by
  intro u
  constructor
  · cases hp : parseU u with
    | none =>
      have hu : normalizeUrl parseU u = u := by simp [normalizeUrl, hp]
      rw [hu]
      exact hu
    | some r =>
      have hwf := h1 u r hp
      have hwf2 := h2 r hwf
      have hps : parseU (serializeRec (stripRec r)) = some (stripRec r) :=
        h3 _ hwf2
      have hnu : normalizeUrl parseU u = serializeRec (stripRec r) := by
        simp [normalizeUrl, hp]
      rw [hnu]
      simp only [normalizeUrl, hps]
      rw [stripRec_idem]
  · intro hp
    simp [normalizeUrl, hp]

/-- C9 witness: the idempotence instance at the concrete parser and a
concrete URL with a fragment and a trailing slash. -/
theorem normalizeUrl_idem_witness :
    normalizeUrl hashParse (normalizeUrl hashParse "http://a/b/#x")
      = normalizeUrl hashParse "http://a/b/#x" :=
  (normalizeUrl_idem_total hashParse hashWF hashParse_wf hashWF_strip
    hashParse_serialize "http://a/b/#x").1

/-! Deduplication lemmas. -/

/-- Every item kept by dedupeGo has a canonical url not in the seen set and
not empty, and is the canonicalized form of the first input item bearing
that canonical url. -/
lemma dedupeGo_mem_spec (parseU : String → Option URLRec) :
    ∀ (l : List Item) (seen : List String) (y : Item),
      y ∈ dedupeGo parseU seen l →
      y.url ∉ seen ∧ y.url ≠ "" ∧
      ∃ x pre post, l = pre ++ x :: post ∧
        y = { x with url := normalizeUrl parseU x.url } ∧
        ∀ z ∈ pre, normalizeUrl parseU z.url ≠ y.url := by
  intro l
  induction l with
  | nil => intro seen y hy; simp [dedupeGo] at hy
  | cons x xs ih =>
    intro seen y hy
    rw [dedupeGo] at hy
    by_cases hc : normalizeUrl parseU x.url = "" ∨ normalizeUrl parseU x.url ∈ seen
    · rw [if_pos hc] at hy
      obtain ⟨h1, h2, x2, pre, post, hl, hyx, hpre⟩ := ih seen y hy
      refine ⟨h1, h2, x2, x :: pre, post, by rw [hl, List.cons_append], hyx, ?_⟩
      intro z hz
      rcases List.mem_cons.mp hz with hz | hz
      · subst hz
        rcases hc with hc | hc
        · rw [hc]; exact fun h => h2 h.symm
        · intro h; exact h1 (h ▸ hc)
      · exact hpre z hz
    · rw [if_neg hc] at hy
      push_neg at hc
      rcases List.mem_cons.mp hy with hy | hy
      · refine ⟨?_, ?_, x, [], xs, rfl, hy, by simp⟩
        · rw [hy]; exact hc.2
        · rw [hy]; exact hc.1
      · obtain ⟨h1, h2, x2, pre, post, hl, hyx, hpre⟩ := ih _ y hy
        have hne : y.url ≠ normalizeUrl parseU x.url :=
          fun h => h1 (h ▸ List.mem_cons_self _ _)
        refine ⟨fun h => h1 (List.mem_cons_of_mem _ h), h2,
          x2, x :: pre, post, by rw [hl, List.cons_append], hyx, ?_⟩
        intro z hz
        rcases List.mem_cons.mp hz with hz | hz
        · subst hz; exact fun h => hne h.symm
        · exact hpre z hz

/-- The urls of the deduplicated sequence are pairwise distinct. -/
lemma dedupeGo_url_nodup (parseU : String → Option URLRec) :
    ∀ (l : List Item) (seen : List String),
      ((dedupeGo parseU seen l).map (fun x => x.url)).Nodup := by
  intro l
  induction l with
  | nil => intro seen; simp [dedupeGo]
  | cons x xs ih =>
    intro seen
    rw [dedupeGo]
    split
    · exact ih seen
    · simp only [List.map_cons, List.nodup_cons]
      refine ⟨?_, ih _⟩
      intro hmem
      obtain ⟨y, hy, hyu⟩ := List.mem_map.mp hmem
      have h1 := (dedupeGo_mem_spec parseU xs _ y hy).1
      rw [hyu] at h1
      exact h1 (List.mem_cons_self _ _)

/-- Every deduplicated item is the canonicalized form of some input item. -/
lemma dedupeByUrl_mem_src (parseU : String → Option URLRec)
    (l : List Item) (y : Item) (hy : y ∈ dedupeByUrl parseU l) :
    ∃ x ∈ l, y = { x with url := normalizeUrl parseU x.url } := by
  obtain ⟨_, _, x, pre, post, hl, hyx, _⟩ :=
    dedupeGo_mem_spec parseU l [] y hy
  exact ⟨x, by rw [hl]; exact List.mem_append_right _ (List.mem_cons_self _ _), hyx⟩

/-! Collection-loop lemmas. -/

/-- Every item pushed for one endpoint is the normalization of one of its
entries. -/
lemma mem_pushEntries (o : DateOracle) (uuid : Nat → String) (now : Int)
    (brand : String) (hints : List String) :
    ∀ (es : List Entry) (cnt : Nat) (x : Item),
      x ∈ (pushEntries o uuid now brand hints es cnt).1 →
      ∃ e c, e ∈ es ∧ x = normEntry o now brand hints (uuid c) e := by
  intro es
  induction es with
  | nil => intro cnt x hx; simp [pushEntries] at hx
  | cons e es ih =>
    intro cnt x hx
    rw [pushEntries] at hx
    split at hx
    · obtain ⟨e2, c, he, hx⟩ := ih cnt x hx
      exact ⟨e2, c, List.mem_cons_of_mem _ he, hx⟩
    · simp only at hx
      rcases List.mem_cons.mp hx with hx | hx
      · exact ⟨e, cnt, List.mem_cons_self _ _, hx⟩
      · obtain ⟨e2, c, he, hx⟩ := ih (cnt + 1) x hx
        exact ⟨e2, c, List.mem_cons_of_mem _ he, hx⟩

/-- Every item collected over the endpoints of one source is the
normalization of an entry of a successful endpoint. -/
lemma mem_collectFeeds (o : DateOracle) (uuid : Nat → String) (now : Int)
    (brand : String) (hints : List String)
    (out : String → Except String (List Entry)) :
    ∀ (us : List String) (cnt : Nat) (x : Item),
      x ∈ (collectFeeds o uuid now brand hints out us cnt).1 →
      ∃ e c, x = normEntry o now brand hints (uuid c) e := by
  intro us
  induction us with
  | nil => intro cnt x hx; simp [collectFeeds] at hx
  | cons u us ih =>
    intro cnt x hx
    rw [collectFeeds] at hx
    simp only at hx
    rcases List.mem_append.mp hx with hx | hx
    · revert hx
      split
      · intro hx; simp at hx
      · intro hx
        obtain ⟨e, c, _, hx⟩ := mem_pushEntries o uuid now brand hints _ _ x hx
        exact ⟨e, c, hx⟩
    · exact ih _ x hx

/-- Every collected item of a run is the normalization of some entry for
some source. -/
lemma mem_pipelineCollected (o : DateOracle) (uuid : Nat → String)
    (now : Int) (out : String → Except String (List Entry)) :
    ∀ (bs : List Brand) (cnt : Nat) (x : Item),
      x ∈ (collectAll o uuid now out bs cnt).1 →
      ∃ brand hints c e, x = normEntry o now brand hints (uuid c) e := by
  intro bs
  induction bs with
  | nil => intro cnt x hx; simp [collectAll] at hx
  | cons b bs ih =>
    intro cnt x hx
    rw [collectAll] at hx
    simp only at hx
    rcases List.mem_append.mp hx with hx | hx
    · obtain ⟨e, c, hx⟩ :=
        mem_collectFeeds o uuid now b.brand b.categoryHints out _ _ x hx
      exact ⟨b.brand, b.categoryHints, c, e, hx⟩
    · exact ih _ x hx

/-! Outcome-update lemmas for failure isolation. -/

/-- Replacing a failing endpoint by a successful empty one leaves the
per-source collection unchanged. -/
lemma collectFeeds_upd (o : DateOracle) (uuid : Nat → String) (now : Int)
    (brand : String) (hints : List String)
    (out : String → Except String (List Entry)) (e : String) (msg : String)
    (he : out e = .error msg) :
    ∀ (us : List String) (cnt : Nat),
      collectFeeds o uuid now brand hints (updOutcome out e (.ok [])) us cnt
        = collectFeeds o uuid now brand hints out us cnt := by
  intro us
  induction us with
  | nil => intro cnt; rfl
  | cons u us ih =>
    intro cnt
    by_cases hu : u = e
    · subst hu
      rw [collectFeeds, collectFeeds]
      have h1 : updOutcome out u (.ok []) u = .ok [] := by
        simp [updOutcome]
      rw [h1, he]
      simp only [pushEntries]
      rw [ih cnt]
    · rw [collectFeeds, collectFeeds]
      have h1 : updOutcome out e (.ok []) u = out u := by
        simp [updOutcome, hu]
      rw [h1, ih]

/-- Replacing a failing endpoint by a successful empty one leaves the whole
collection unchanged. -/
lemma collectAll_upd (o : DateOracle) (uuid : Nat → String) (now : Int)
    (out : String → Except String (List Entry)) (e : String) (msg : String)
    (he : out e = .error msg) :
    ∀ (bs : List Brand) (cnt : Nat),
      collectAll o uuid now (updOutcome out e (.ok [])) bs cnt
        = collectAll o uuid now out bs cnt := by
  intro bs
  induction bs with
  | nil => intro cnt; rfl
  | cons b bs ih =>
    intro cnt
    rw [collectAll, collectAll,
      collectFeeds_upd o uuid now b.brand b.categoryHints out e msg he, ih]

/-- C1: failure isolation.  A fetch or parse failure at one endpoint is
caught inside the per-endpoint loop (the catch of the translation is the
error branch of the outcome match, which is total, so no failure escapes),
and the whole run — collection, filtering, deduplication, sorting and
fallback — equals the run in which that endpoint succeeded with zero
entries.  In particular the items of every other successful endpoint, of
the same or of a different source, are collected and appear in the final
output exactly as they would had the failing endpoint produced nothing. -/
theorem feed_failure_isolation (o : DateOracle)
    (parseU : String → Option URLRec) (uuid : Nat → String) (now : Int)
    (bs : List Brand) (out : String → Except String (List Entry))
    (e msg : String) (he : out e = .error msg) :
    runPipeline o parseU uuid now bs out
      = runPipeline o parseU uuid now bs (updOutcome out e (.ok [])) := by
  have h := collectAll_upd o uuid now out e msg he bs 0
  rw [runPipeline, runPipeline, pipelineSorted, pipelineSorted,
    pipelineFiltered, pipelineFiltered, pipelineCollected, pipelineCollected,
    pipelineCnt, pipelineCnt, h]

/-- C1 witness: a two-endpoint source whose first endpoint fails; the run
equals the run where that endpoint returns no entries. -/
theorem feed_failure_isolation_witness :
    runPipeline binOracle urlNone uuidConst 0 [twoFeedBrand] mixedOut
      = runPipeline binOracle urlNone uuidConst 0 [twoFeedBrand]
          (updOutcome mixedOut "u1" (.ok [])) :=
  feed_failure_isolation binOracle urlNone uuidConst 0 [twoFeedBrand]
    mixedOut "u1" "boom" rfl

/-- C2 counterexample: the claim that the kept representative of a
canonical URL is the first-seen item in collection order fails when an
earlier collected duplicate is dropped by the time-window filter.  Two
entries share a link; the first is outside the window, so the run keeps
the second collected item, not the first-seen one. -/
theorem dedupe_firstseen_cex :
    pipelineCollected binOracle uuidConst 0 [cexBrand] dupOut
      = [normEntry binOracle 0 "B" [] "id" cexE1,
         normEntry binOracle 0 "B" [] "id" cexE2] ∧
    normalizeUrl urlNone (normEntry binOracle 0 "B" [] "id" cexE1).url
      = normalizeUrl urlNone (normEntry binOracle 0 "B" [] "id" cexE2).url ∧
    normEntry binOracle 0 "B" [] "id" cexE1
      ≠ normEntry binOracle 0 "B" [] "id" cexE2 ∧
    runPipeline binOracle urlNone uuidConst 0 [cexBrand] dupOut
      = [normEntry binOracle 0 "B" [] "id" cexE2] ∧
    runPipeline binOracle urlNone uuidConst 0 [cexBrand] dupOut
      ≠ [normEntry binOracle 0 "B" [] "id" cexE1] := by
  decide

/-- C2 (amended): in every final output the item urls — which dedupeByUrl
has set to the canonical URLs — are pairwise distinct; and whenever the
output is not the synthetic fallback, every output item is the
canonicalized form of the first item of the time-window-filtered
collection bearing its canonical URL (items dropped by the time filter are
not considered, which is what the counterexample forces). -/
theorem dedupe_postcondition (o : DateOracle)
    (parseU : String → Option URLRec) (uuid : Nat → String) (now : Int)
    (bs : List Brand) (out : String → Except String (List Entry)) :
    ((runPipeline o parseU uuid now bs out).map (fun x => x.url)).Nodup ∧
    (pipelineSorted o parseU uuid now bs out ≠ [] →
      ∀ y ∈ runPipeline o parseU uuid now bs out,
        ∃ x pre post,
          pipelineFiltered o uuid now bs out = pre ++ x :: post ∧
          y = { x with url := normalizeUrl parseU x.url } ∧
          ∀ z ∈ pre, normalizeUrl parseU z.url ≠ normalizeUrl parseU x.url) := by
  have hperm : List.Perm (pipelineSorted o parseU uuid now bs out)
      (dedupeByUrl parseU (pipelineFiltered o uuid now bs out)) := by
    rw [pipelineSorted, sortDesc]
    exact List.perm_insertionSort _ _
  constructor
  · rw [runPipeline]
    split
    · simp
    · exact ((hperm.map (fun x => x.url)).nodup_iff).mpr
        (dedupeGo_url_nodup parseU _ [])
  · intro hne y hy
    rw [runPipeline, if_neg hne] at hy
    have hy2 : y ∈ dedupeByUrl parseU (pipelineFiltered o uuid now bs out) :=
      hperm.mem_iff.mp hy
    obtain ⟨h1, h2, x, pre, post, hl, hyx, hpre⟩ :=
      dedupeGo_mem_spec parseU _ [] y hy2
    refine ⟨x, pre, post, hl, hyx, ?_⟩
    intro z hz
    have hz2 := hpre z hz
    have hyu : y.url = normalizeUrl parseU x.url := by rw [hyx]
    rw [hyu] at hz2
    exact hz2

/-- C2 witness: the amended statement applied to the concrete
duplicate-link run, exhibiting the first-seen decomposition of the
surviving item. -/
theorem dedupe_postcondition_witness :
    ((runPipeline binOracle urlNone uuidConst 0 [cexBrand] dupOut).map
        (fun x => x.url)).Nodup ∧
    ∃ x pre post,
      pipelineFiltered binOracle uuidConst 0 [cexBrand] dupOut
        = pre ++ x :: post ∧
      normEntry binOracle 0 "B" [] "id" cexE2
        = { x with url := normalizeUrl urlNone x.url } ∧
      ∀ z ∈ pre, normalizeUrl urlNone z.url ≠ normalizeUrl urlNone x.url := by
  have h := dedupe_postcondition binOracle urlNone uuidConst 0 [cexBrand] dupOut
  exact ⟨h.1, h.2 (by decide) (normEntry binOracle 0 "B" [] "id" cexE2)
    (by decide)⟩

/-- C3: time-window post-condition.  Every item of the final output has a
publishedAt that parses to an instant within the inclusive window from now
minus ninety days to now plus one day; in particular no collected item
outside the window can be present, since output items other than the
fallback come from the filtered collection and the fallback carries the
current instant. -/
theorem time_window_postcondition (o : DateOracle)
    (parseU : String → Option URLRec) (uuid : Nat → String) (now : Int)
    (bs : List Brand) (out : String → Except String (List Entry))
    (hg : o.Good) :
    ∀ x ∈ runPipeline o parseU uuid now bs out,
      ∃ t, o.parse x.publishedAt = some t ∧
        now - 90 * dayMs ≤ t ∧ t ≤ now + dayMs := by
  intro x hx
  rw [runPipeline] at hx
  split at hx
  · have hx2 : x = fallbackItem (uuid (pipelineCnt o uuid now bs out))
        (o.fmt now) := by simpa using hx
    refine ⟨now, ?_, ?_, ?_⟩
    · rw [hx2]
      exact hg now
    · simp only [dayMs]
      omega
    · simp only [dayMs]
      omega
  · have hperm : List.Perm (pipelineSorted o parseU uuid now bs out)
        (dedupeByUrl parseU (pipelineFiltered o uuid now bs out)) := by
      rw [pipelineSorted, sortDesc]
      exact List.perm_insertionSort _ _
    have hx2 := hperm.mem_iff.mp hx
    obtain ⟨y, hy, hxy⟩ := dedupeByUrl_mem_src parseU _ x hx2
    rw [pipelineFiltered] at hy
    obtain ⟨hy1, hy2⟩ := List.mem_filter.mp hy
    have hpub : x.publishedAt = y.publishedAt := by rw [hxy]
    rw [inWindow] at hy2
    split at hy2
    · rename_i t hp
      simp only [Bool.and_eq_true, decide_eq_true_eq] at hy2
      refine ⟨t, ?_, hy2.1, hy2.2⟩
      rw [hpub]
      exact hp
    · exact absurd hy2 (by simp)

/-- C3 witness: the window bounds for the surviving item of the concrete
duplicate-link run. -/
theorem time_window_postcondition_witness :
    ∃ t, binOracle.parse
        (normEntry binOracle 0 "B" [] "id" cexE2).publishedAt = some t ∧
      0 - 90 * dayMs ≤ t ∧ t ≤ 0 + dayMs :=
  time_window_postcondition binOracle urlNone uuidConst 0 [cexBrand] dupOut
    binOracle_good (normEntry binOracle 0 "B" [] "id" cexE2) (by decide)

/-- C4: empty-result fallback.  When the filtered, deduplicated, sorted
sequence is empty — for instance because every feed of every source
failed — the final output is exactly the one synthetic diagnostic item,
whose brand, timestamp, category, source type and placeholder URL are the
fixed ones of the source; and the output of a run is never empty. -/
theorem empty_fallback (o : DateOracle)
    (parseU : String → Option URLRec) (uuid : Nat → String) (now : Int)
    (bs : List Brand) (out : String → Except String (List Entry)) :
    (pipelineSorted o parseU uuid now bs out = [] →
      runPipeline o parseU uuid now bs out
        = [fallbackItem (uuid (pipelineCnt o uuid now bs out)) (o.fmt now)]) ∧
    runPipeline o parseU uuid now bs out ≠ [] ∧
    (fallbackItem (uuid (pipelineCnt o uuid now bs out)) (o.fmt now)).brand
      = "テスト（feed未取得）" ∧
    (fallbackItem (uuid (pipelineCnt o uuid now bs out)) (o.fmt now)).publishedAt
      = o.fmt now ∧
    (fallbackItem (uuid (pipelineCnt o uuid now bs out)) (o.fmt now)).category
      = "スキンケア" ∧
    (fallbackItem (uuid (pipelineCnt o uuid now bs out)) (o.fmt now)).sourceType
      = "website" ∧
    (fallbackItem (uuid (pipelineCnt o uuid now bs out)) (o.fmt now)).url
      = "https://example.com/" := by
  refine ⟨?_, ?_, rfl, rfl, rfl, rfl, rfl⟩
  · intro h
    rw [runPipeline, if_pos h]
  · rw [runPipeline]
    split
    · simp
    · rename_i h
      exact h

/-- C4 witness: a run in which the only endpoint fails produces exactly the
diagnostic item. -/
theorem empty_fallback_witness :
    runPipeline binOracle urlNone uuidConst 0 [cexBrand] errOut
      = [fallbackItem "id" (binFmt 0)] ∧
    runPipeline binOracle urlNone uuidConst 0 [cexBrand] errOut ≠ [] := by
  have h := empty_fallback binOracle urlNone uuidConst 0 [cexBrand] errOut
  exact ⟨h.1 rfl, h.2.1⟩

/-- C8: publishedAt validity.  Assuming the platform date codec contract,
every normalized item has a publishedAt that parses (never the invalid
sentinel); a raw date value that fails to parse is silently replaced by
the current instant; and consequently every collected item of a run parses,
so the invalid-date exclusion of the time-window filter never drops a
normalized item. -/
theorem publishedAt_validity (o : DateOracle) (uuid : Nat → String)
    (now : Int) (bs : List Brand)
    (out : String → Except String (List Entry)) (hg : o.Good) :
    (∀ (brand : String) (hints : List String) (id : String) (e : Entry),
       ∃ t, o.parse (normEntry o now brand hints id e).publishedAt = some t) ∧
    (∀ (brand : String) (hints : List String) (id : String) (e : Entry),
       o.parse e.pubDate = none →
       (normEntry o now brand hints id e).publishedAt = o.fmt now) ∧
    (∀ x ∈ pipelineCollected o uuid now bs out,
       ∃ t, o.parse x.publishedAt = some t) := by
  have key : ∀ (brand : String) (hints : List String) (id : String)
      (e : Entry),
      ∃ t, o.parse (normEntry o now brand hints id e).publishedAt = some t := by
    intro brand hints id e
    have hform : (normEntry o now brand hints id e).publishedAt
        = toISO o now (if e.pubDate = "" then o.fmt now else e.pubDate) := rfl
    rw [hform]
    cases hp : o.parse (if e.pubDate = "" then o.fmt now else e.pubDate) with
    | some t =>
      refine ⟨t, ?_⟩
      simp only [toISO, hp]
      exact hg t
    | none =>
      refine ⟨now, ?_⟩
      simp only [toISO, hp]
      exact hg now
  refine ⟨key, ?_, ?_⟩
  · intro brand hints id e hp
    have hform : (normEntry o now brand hints id e).publishedAt
        = toISO o now (if e.pubDate = "" then o.fmt now else e.pubDate) := rfl
    rw [hform]
    by_cases hd : e.pubDate = ""
    · rw [if_pos hd]
      simp only [toISO, hg now]
    · rw [if_neg hd]
      simp only [toISO, hp]
  · intro x hx
    rw [pipelineCollected] at hx
    obtain ⟨brand, hints, c, e, hx⟩ :=
      mem_pipelineCollected o uuid now out bs 0 x hx
    rw [hx]
    exact key brand hints (uuid c) e

/-- C8 witness: validity of the normalized publishedAt of a concrete
entry under the concrete codec. -/
theorem publishedAt_validity_witness :
    ∃ t, binOracle.parse
        (normEntry binOracle 0 "B" [] "id" cexE1).publishedAt = some t :=
  (publishedAt_validity binOracle uuidConst 0 [cexBrand] dupOut
    binOracle_good).1 "B" [] "id" cexE1

/-! Title-normalizer lemmas and claims. -/

/-- The final step of the title normalizer always yields a text starting
with the brand characters. -/
lemma brand_prefix_aux (bd t : List Char) :
    bd <+: (if startsWithL bd t then t else bd ++ "：".data ++ t) := by
  split
  · rename_i h
    exact List.isPrefixOf_iff_prefix.mp h
  · rw [List.append_assoc]
    exact List.prefix_append _ _

/-- C5 counterexample: the claimed example output does not start with the
new-product tag; the source prepends the brand prefix after the tag
brackets, so the result starts with the brand. -/
theorem title_example_cex :
    normalizeTitle "ABC" "新作コスメ登場" = "ABC：【新作】新作コスメ登場" ∧
    startsWithL "【新作】".data
      (normalizeTitle "ABC" "新作コスメ登場").data = false := by
  decide

/-- C5 (amended): the example result contains the new-product tag, contains
the brand prefix, and indeed starts with the brand prefix. -/
theorem title_example_amended :
    hasSubstr "【新作】".data (normalizeTitle "ABC" "新作コスメ登場").data = true ∧
    hasSubstr "ABC：".data (normalizeTitle "ABC" "新作コスメ登場").data = true ∧
    startsWithL "ABC：".data
      (normalizeTitle "ABC" "新作コスメ登場").data = true := by
  decide

/-- C10: for every non-empty brand and every raw title the normalized title
begins with the brand characters — the empty-title branch returns the
brand plus a fixed suffix, and the non-empty branch prefixes the brand
whenever the processed text does not already start with it. -/
theorem title_starts_with_brand (brand raw : String) (hb : brand ≠ "") :
    brand.data <+: (normalizeTitle brand raw).data := by
  by_cases hr : raw = ""
  · rw [normalizeTitle, if_pos hr, data_append]
    exact List.prefix_append _ _
  · rw [normalizeTitle, if_neg hr]
    exact brand_prefix_aux brand.data _

/-- C10 witness: the brand prefix instance at the concrete example. -/
theorem title_starts_with_brand_witness :
    "ABC".data <+: (normalizeTitle "ABC" "新作コスメ登場").data :=
  title_starts_with_brand "ABC" "新作コスメ登場" (by decide)

/-! Summarizer lemmas and claims. -/

/-- Collapsing preserves the non-whitespace characters. -/
lemma collapseGo_filter (l : List Char) :
    ∀ b, (collapseGo b l).filter (fun c => !(isJsWS c))
      = l.filter (fun c => !(isJsWS c)) := by
  induction l with
  | nil => intro b; rfl
  | cons c rest ih =>
    intro b
    have hsp : isJsWS ' ' = true := by decide
    by_cases hw : isJsWS c = true
    · rw [collapseGo, if_pos hw]
      split
      · simp [List.filter_cons, hw, ih]
      · simp [List.filter_cons, hw, hsp, ih]
    · rw [collapseGo, if_neg hw]
      simp [List.filter_cons, hw, ih]

/-- Dropping leading whitespace preserves the non-whitespace characters. -/
lemma dropWhile_filter (l : List Char) :
    (l.dropWhile isJsWS).filter (fun c => !(isJsWS c))
      = l.filter (fun c => !(isJsWS c)) := by
  induction l with
  | nil => rfl
  | cons c rest ih =>
    rw [List.dropWhile_cons]
    by_cases hw : isJsWS c = true
    · rw [if_pos hw, ih]
      simp [List.filter_cons, hw]
    · rw [if_neg hw]

/-- Trimming preserves the non-whitespace characters. -/
lemma trimL_filter (l : List Char) :
    (trimL l).filter (fun c => !(isJsWS c))
      = l.filter (fun c => !(isJsWS c)) := by
  rw [trimL, List.filter_reverse, dropWhile_filter, List.filter_reverse,
    List.reverse_reverse, dropWhile_filter]

/-- Collapsing an all-whitespace text in whitespace state gives nothing. -/
lemma collapseGo_true_allws (l : List Char) (h : l.all isJsWS = true) :
    collapseGo true l = [] := by
  induction l with
  | nil => rfl
  | cons c rest ih =>
    rw [List.all_cons, Bool.and_eq_true] at h
    rw [collapseGo, if_pos h.1]
    simpa using ih h.2

/-- Collapsing and trimming an all-whitespace text gives the empty text. -/
lemma collapseTrim_allws (l : List Char) (h : l.all isJsWS = true) :
    collapseTrim l = [] := by
  have hcg : collapseGo false l = [] ∨ collapseGo false l = [' '] := by
    cases l with
    | nil => exact Or.inl rfl
    | cons c rest =>
      rw [List.all_cons, Bool.and_eq_true] at h
      rw [collapseGo, if_pos h.1]
      right
      have h2 := collapseGo_true_allws rest h.2
      simp [h2]
  rw [collapseTrim, collapseL]
  rcases hcg with hcg | hcg <;> rw [hcg] <;> decide

/-- The collapsed-and-trimmed text is empty exactly when the input is all
whitespace. -/
lemma collapseTrim_eq_nil_iff (l : List Char) :
    collapseTrim l = [] ↔ l.all isJsWS = true := by
  constructor
  · intro h
    by_contra hall
    have hf : l.filter (fun c => !(isJsWS c)) ≠ [] := by
      intro hfe
      apply hall
      rw [List.all_eq_true]
      intro x hx
      by_contra hxw
      have hmem : x ∈ l.filter (fun c => !(isJsWS c)) :=
        List.mem_filter.mpr ⟨hx, by simp [hxw]⟩
      rw [hfe] at hmem
      exact absurd hmem (List.not_mem_nil x)
    apply hf
    have hpres : (collapseTrim l).filter (fun c => !(isJsWS c))
        = l.filter (fun c => !(isJsWS c)) := by
      rw [collapseTrim, trimL_filter]
      exact collapseGo_filter l false
    rw [← hpres, h]
    rfl
  · exact collapseTrim_allws l

/-- Cutting at the first full stop: the cut text is non-empty, ends with
the full stop, and contains no earlier full stop. -/
lemma firstStop_take (l : List Char) :
    ∀ i, firstStop l = some i →
      l.take (i + 1) ≠ [] ∧ (l.take (i + 1)).getLast? = some '。' ∧
      '。' ∉ (l.take (i + 1)).dropLast := by
  induction l with
  | nil => intro i h; simp [firstStop] at h
  | cons c rest ih =>
    intro i h
    rw [firstStop] at h
    by_cases hc : c = '。'
    · rw [if_pos hc] at h
      simp only [Option.some.injEq] at h
      subst h
      subst hc
      refine ⟨by simp, by simp, by simp⟩
    · rw [if_neg hc] at h
      cases hj : firstStop rest with
      | none => rw [hj] at h; simp at h
      | some j =>
        rw [hj] at h
        simp only [Option.map_some', Option.some.injEq] at h
        subst h
        obtain ⟨h1, h2, h3⟩ := ih j hj
        refine ⟨by simp, ?_, ?_⟩
        · rw [List.take_succ_cons]
          cases ht : rest.take (j + 1) with
          | nil => exact absurd ht h1
          | cons d t2 =>
            rw [List.getLast?_cons_cons]
            rw [ht] at h2
            exact h2
        · rw [List.take_succ_cons]
          cases ht : rest.take (j + 1) with
          | nil => exact absurd ht h1
          | cons d t2 =>
            rw [ht] at h3
            rw [List.dropLast_cons₂]
            intro hm
            rcases List.mem_cons.mp hm with hm | hm
            · exact hc hm.symm
            · exact h3 hm

/-- A truncation wrapped as a string can only be empty when the underlying
text is empty. -/
lemma take_mk_eq_empty {l : List Char} {n : Nat}
    (h : String.mk (l.take n) = "") (hn : n ≠ 0) : l = [] := by
  have hl : l.take n = [] := by simpa using congrArg String.data h
  rcases List.take_eq_nil_iff.mp hl with h0 | h0
  · exact absurd h0 hn
  · exact h0

/-- C6 counterexample: the summarizer contract fails as claimed in two
places.  A whitespace-only description is a non-empty input, yet the
resulting item summary is empty; and a text whose first full stop is the
twenty-first character (index twenty) is not cut at the stop — the source
requires the index to exceed twenty — so the result does not end at the
first full stop. -/
theorem summarizer_claim_cex :
    (" " : String) ≠ "" ∧ summarizeJP " " = "" ∧
    (normEntry binOracle 0 "B" [] "id" ⟨"x", "http://a/", " ", "N"⟩).summary
      = "" ∧
    firstStop (trimL (collapseL "aaaaaaaaaaaaaaaaaaaa。bbb".data)) = some 20 ∧
    summarizeJP "aaaaaaaaaaaaaaaaaaaa。bbb" = "aaaaaaaaaaaaaaaaaaaa。bbb" ∧
    (summarizeJP "aaaaaaaaaaaaaaaaaaaa。bbb").data.getLast? ≠ some '。' := by
  decide

/-- C6 (amended): the summarizer returns the fixed sentence exactly on
empty input; every result is at most 120 characters long or ends at the
first full stop of the collapsed text with nothing after it; and the
result is empty exactly when the input is non-empty but consists only of
whitespace (the only amendment the counterexample forces, together with
reading the cut condition as index strictly greater than twenty). -/
theorem summarizer_contract (txt : String) :
    (txt = "" → summarizeJP txt = "公式情報の要点をまとめました。") ∧
    ((summarizeJP txt).data.length ≤ 120 ∨
      ((summarizeJP txt).data ≠ [] ∧
       (summarizeJP txt).data.getLast? = some '。' ∧
       '。' ∉ (summarizeJP txt).data.dropLast)) ∧
    (summarizeJP txt = "" ↔ (txt ≠ "" ∧ txt.data.all isJsWS = true)) := by
  by_cases ht : txt = ""
  · subst ht
    exact ⟨fun _ => rfl, Or.inl (by decide),
      ⟨fun h => absurd h (by decide), fun h => absurd rfl h.1⟩⟩
  · have hsome : ∀ i, firstStop (trimL (collapseL txt.data)) = some i →
        summarizeJP txt = (if 20 < i
          then String.mk ((trimL (collapseL txt.data)).take (i + 1))
          else String.mk ((trimL (collapseL txt.data)).take 120)) := by
      intro i hr
      simp only [summarizeJP, if_neg ht, hr]
    have hnone : firstStop (trimL (collapseL txt.data)) = none →
        summarizeJP txt = String.mk ((trimL (collapseL txt.data)).take 120) := by
      intro hr
      simp only [summarizeJP, if_neg ht, hr]
    refine ⟨fun h => absurd h ht, ?_, ?_⟩
    · cases hf : firstStop (trimL (collapseL txt.data)) with
      | none =>
        left
        rw [hnone hf]
        show ((trimL (collapseL txt.data)).take 120).length ≤ 120
        simp [List.length_take]
      | some i =>
        by_cases hi : 20 < i
        · right
          rw [hsome i hf, if_pos hi]
          exact firstStop_take _ i hf
        · left
          rw [hsome i hf, if_neg hi]
          show ((trimL (collapseL txt.data)).take 120).length ≤ 120
          simp [List.length_take]
    · constructor
      · intro h
        refine ⟨ht, ?_⟩
        apply (collapseTrim_eq_nil_iff txt.data).mp
        cases hf : firstStop (trimL (collapseL txt.data)) with
        | none =>
          rw [hnone hf] at h
          exact take_mk_eq_empty h (by norm_num)
        | some i =>
          by_cases hi : 20 < i
          · rw [hsome i hf, if_pos hi] at h
            exact take_mk_eq_empty h (by omega)
          · rw [hsome i hf, if_neg hi] at h
            exact take_mk_eq_empty h (by norm_num)
      · rintro ⟨-, hall⟩
        have hnil : collapseTrim txt.data = [] := collapseTrim_allws _ hall
        have hf : firstStop (trimL (collapseL txt.data)) = none := by
          rw [show trimL (collapseL txt.data) = ([] : List Char) from hnil]
          rfl
        rw [hnone hf,
          show trimL (collapseL txt.data) = ([] : List Char) from hnil]
        rfl

/-- C6 witness: the fixed-sentence instance of the amended contract. -/
theorem summarizer_contract_witness :
    summarizeJP "" = "公式情報の要点をまとめました。" :=
  (summarizer_contract "").1 rfl

/-! Link-extraction claims. -/

/-- When the link field yields nothing, pickLink falls back to the
enclosure value. -/
lemma pickLink_no_usable (it : RawIt) (hu : usableLink it.link = false) :
    pickLink it = enclOf it := by
  cases hl : it.link with
  | absent => simp only [pickLink, hl]
  | str s =>
    rw [hl] at hu
    have hs : s = "" := by simpa [usableLink] using hu
    simp only [pickLink, hl, if_pos hs]
  | obj o =>
    rw [hl] at hu
    have ho : hrefTruthy o = false := by simpa [usableLink] using hu
    have hno : ¬ (hrefTruthy o = true) := by
      rw [ho]
      exact Bool.false_ne_true
    simp only [pickLink, hl]
    rw [if_neg hno]
  | arr l =>
    rw [hl] at hu
    have hany : ∀ x ∈ l, ¬ hrefTruthy x = true := by
      rw [usableLink] at hu
      exact List.any_eq_false.mp hu
    have hf2 : l.find? hrefTruthy = none := List.find?_eq_none.mpr hany
    have hf1 : l.find? altPred = none := by
      apply List.find?_eq_none.mpr
      intro x hx hcon
      rw [altPred, Bool.and_eq_true] at hcon
      exact hany x hx hcon.2
    simp only [pickLink, hl, hf1, hf2]

/-- C7: link-extraction precedence.  A truthy plain string wins; a single
object with a truthy href wins; in a sequence the first alternate-marked
object with a truthy href wins, else the first object with a truthy href;
with no usable link field the truthy enclosure URL is used; and with
neither, the empty string — the no-usable-link signal — is returned. -/
theorem pickLink_precedence (it : RawIt) :
    (∀ s, it.link = .str s → s ≠ "" → pickLink it = s) ∧
    (∀ o h, it.link = .obj o → o.href = some h → h ≠ "" → pickLink it = h) ∧
    (∀ l alt, it.link = .arr l → l.find? altPred = some alt →
      pickLink it = hrefOf alt) ∧
    (∀ l f, it.link = .arr l → l.find? altPred = none →
      l.find? hrefTruthy = some f → pickLink it = hrefOf f) ∧
    (usableLink it.link = false → ∀ u, it.enclosureUrl = some u → u ≠ "" →
      pickLink it = u) ∧
    (usableLink it.link = false →
      (it.enclosureUrl = none ∨ it.enclosureUrl = some "") →
      pickLink it = "") := by
  refine ⟨?_, ?_, ?_, ?_, ?_, ?_⟩
  · intro s hl hsne
    simp only [pickLink, hl]
    rw [if_neg hsne]
  · intro o h hl ho hh
    have htr : hrefTruthy o = true := by
      rw [hrefTruthy, ho]
      exact decide_eq_true hh
    simp only [pickLink, hl, htr]
    simp [hrefOf, ho]
  · intro l alt hl hf
    simp only [pickLink, hl, hf]
  · intro l f hl hfa hff
    simp only [pickLink, hl, hfa, hff]
  · intro hu u he hue
    rw [pickLink_no_usable it hu]
    simp only [enclOf, he]
    rw [if_neg hue]
  · intro hu hopt
    rw [pickLink_no_usable it hu]
    rcases hopt with h | h <;> simp [enclOf, h]

/-- C7 witness: the alternate-preference instance on a concrete two-element
link sequence. -/
theorem pickLink_precedence_witness :
    pickLink ⟨.arr [⟨some "alternate", some "https://alt/"⟩,
      ⟨none, some "https://first/"⟩], none⟩ = "https://alt/" := by
  have h := pickLink_precedence ⟨.arr [⟨some "alternate", some "https://alt/"⟩,
    ⟨none, some "https://first/"⟩], none⟩
  exact h.2.2.1 [⟨some "alternate", some "https://alt/"⟩,
    ⟨none, some "https://first/"⟩] ⟨some "alternate", some "https://alt/"⟩
    rfl (by decide)

end CosmeFeed
